import Mathlib

/-!
Shallow embedding of `momepy/distribution.py` (spatial distribution characters)
and proofs about it.

Conventions:
- coordinates, angles and distances are rationals (`ℚ`); the external
  `numpy.degrees(numpy.arctan2 ...)` collaborator is abstracted as a function
  argument `f : ℚ → ℚ → ℚ` together with the properties numpy guarantees
  (range `(-180, 180]`, and `arctan2 0 0 = 0`);
- tables are lists, dataframe columns are lists of column names, rows are
  association lists from column name to value;
- the mutable per-call state of a loop (the `patches` dict, the `distance`
  column of the adjacency list, the neighbour lists of a weights matrix) is
  threaded explicitly as a function that the loop updates pointwise.
-/

namespace Momepy

/-! ## Geometry scaffolding (distribution.py lines 56-64) -/

/-- A planar point, as used by the orientation routine. -/
structure Pt where
  x : ℚ
  y : ℚ
deriving DecidableEq

/-- `LineString([p, q]).centroid` for a two-point segment: the midpoint. -/
def midpoint (p q : Pt) : Pt :=
  ⟨(p.x + q.x) / 2, (p.y + q.y) / 2⟩

/-- Squared Euclidean distance.  The source compares the two axis lengths with
`axis1 <= axis2`; comparing squared lengths is equivalent because `sqrt` is
monotone and both lengths are nonnegative, and it keeps the embedding in `ℚ`. -/
def sqDist (p q : Pt) : ℚ :=
  (q.x - p.x) ^ 2 + (q.y - p.y) ^ 2

/-- The first four exterior coordinates of `minimum_rotated_rectangle`
(distribution.py line 57: `bbox[0] .. bbox[3]`). -/
structure BBox where
  a : Pt
  b : Pt
  c : Pt
  d : Pt
deriving DecidableEq

/-! ## Azimuth and the three-stage fold (distribution.py lines 50-53, 66-102) -/

/-- `_azimuth(point1, point2)` (lines 50-53): the angle is
`np.degrees(np.arctan2(dx, dy))`, abstracted as `f dx dy`; the result is the
angle if positive, else the angle plus 180. -/
def azimuth (f : ℚ → ℚ → ℚ) (p1 p2 : Pt) : ℚ :=
  let angle := f (p2.x - p1.x) (p2.y - p1.y)
  if angle > 0 then angle else angle + 180

/-- The three-stage mirroring about 45, 90 and 135 degrees (lines 68-82,
duplicated at lines 87-101 and reused verbatim by `street_alignment` and
`neighbouring_street_orientation_deviation`). -/
def foldAz (az : ℚ) : ℚ :=
  if 90 > az ∧ az ≥ 45 then
    let diff := az - 45
    az - 2 * diff
  else if 135 > az ∧ az ≥ 90 then
    let az1 := az - 2 * (az - 90)
    az1 - 2 * (az1 - 45)
  else if 181 > az ∧ az ≥ 135 then
    let az1 := az - 2 * (az - 135)
    let az2 := az1 - 2 * (az1 - 90)
    az2 - 2 * (az2 - 45)
  else az

/-- One iteration of the `orientation` row loop (lines 56-102): build the two
axis midpoint segments of the minimum rotated rectangle, take the azimuth of
the longer axis, fold it into 0-45. -/
def orientationRow (f : ℚ → ℚ → ℚ) (bbox : BBox) : ℚ :=
  let centroidAB := midpoint bbox.a bbox.b
  let centroidCD := midpoint bbox.c bbox.d
  let axis1 := sqDist centroidAB centroidCD
  let centroidBC := midpoint bbox.b bbox.c
  let centroidDA := midpoint bbox.d bbox.a
  let axis2 := sqDist centroidBC centroidDA
  if axis1 ≤ axis2 then foldAz (azimuth f centroidBC centroidDA)
  else foldAz (azimuth f centroidAB centroidCD)

/-- The `orientation` loop appends exactly one value per row (lines 56-104):
both branches of the axis comparison end in `results_list.append`. -/
def orientationResults (f : ℚ → ℚ → ℚ) (rows : List BBox) : List ℚ :=
  rows.map (orientationRow f)

/-- Modelled from the spec: the external `numpy.degrees ∘ numpy.arctan2`
geometry collaborator (spec section 6, "Geometry provider").  The development
relies only on two of its documented properties — its range is `(-180, 180]`
and `arctan2 0 0 = 0` — and the theorems below take the function abstractly
with those properties as hypotheses.  The constant-zero function satisfies
both and serves as the concrete instance for closed witnesses, which only
ever feed it the zero vector. -/
def arctan2Deg : ℚ → ℚ → ℚ := fun _ _ => 0

/-- A concrete unit-square bounding rectangle, used by witnesses. -/
def exBBox : BBox := ⟨⟨0, 0⟩, ⟨1, 0⟩, ⟨1, 1⟩, ⟨0, 1⟩⟩

/-! ## Pairwise edge cache of mean_interbuilding_distance (lines 472-489)

The adjacency list is a fixed list of directed `(focal, neighbor)` pairs; the
mutable `distance` column (initialised to `-1` on line 475) is threaded as a
function from row position to value.  `dist a b` abstracts the chain
`tessellation.iloc[a]['uID'] → objects → geometry.distance` of lines 482-487:
the geometric distance stored when processing an edge whose focal row is `a`
and neighbor row is `b` is `dist b a` (the source calls
`building_neighbour.geometry.distance(building_object.geometry)`). -/

/-- Position of the first row of the adjacency list equal to `(b, a)`:
`adj_list[(adj_list.focal == row.neighbor)][(adj_list.neighbor == row.focal)].iloc[0]`
(line 480) reads the first match in frame order. -/
def findRev (edges : List (Nat × Nat)) (b a : Nat) : Option Nat :=
  match edges with
  | [] => none
  | e :: rest =>
    if e.1 = b ∧ e.2 = a then some 0 else (findRev rest b a).map (· + 1)

/-- Pointwise update of the distance column at one row position
(`adj_list.loc[index, 'distance'] = ...`). -/
def upd (st : Nat → ℚ) (i : Nat) (v : ℚ) : Nat → ℚ :=
  fun k => if k = i then v else st k

/-- The distance-filling loop (lines 479-489).  `pending` carries the
remaining `(position, edge)` pairs of `adj_list.iterrows()`;  `log` is a ghost
record of the positions where the geometric distance was freshly computed
(the `inverted == -1` branch); the other branch copies the already-stored
reverse value.  The `none` branch of `findRev` models the `.iloc[0]` lookup
on an empty selection, which the source never reaches on a symmetric graph
(there it would raise); the state is left unchanged. -/
def fillGo (dist : Nat → Nat → ℚ) (edges : List (Nat × Nat)) :
    List (Nat × (Nat × Nat)) → (Nat → ℚ) → List Nat → (Nat → ℚ) × List Nat
  | [], st, log => (st, log)
  | (i, e) :: rest, st, log =>
    match findRev edges e.2 e.1 with
    | none => fillGo dist edges rest st log
    | some j =>
      if st j = -1 then
        fillGo dist edges rest (upd st i (dist e.2 e.1)) (log ++ [i])
      else
        fillGo dist edges rest (upd st i (st j)) log

/-- Run the filling loop over the whole adjacency list with the distance
column initialised to `-1` everywhere (lines 474-475). -/
def fillAll (dist : Nat → Nat → ℚ) (edges : List (Nat × Nat)) :
    (Nat → ℚ) × List Nat :=
  fillGo dist edges edges.enum (fun _ => -1) []

/-- Loop invariant of the filling pass, indexed by the number `k` of processed
rows: unprocessed rows still hold `-1`; a processed row holds the geometric
distance of whichever direction of its unordered pair comes first in the
list; and the ghost log holds exactly the processed rows that come no later
than their reverse row. -/
def CacheInv (dist : Nat → Nat → ℚ) (edges : List (Nat × Nat)) (k : Nat)
    (st : Nat → ℚ) (log : List Nat) : Prop :=
  (∀ i, k ≤ i → st i = -1) ∧
  (∀ i a b j, i < k → edges[i]? = some (a, b) → findRev edges b a = some j →
    (i ≤ j → st i = dist b a) ∧ (j < i → st i = dist a b)) ∧
  (∀ i, i ∈ log ↔
    ∃ a b j, i < k ∧ edges[i]? = some (a, b) ∧ findRev edges b a = some j ∧ i ≤ j)

/-- Postcondition of the filling pass used by the cache-symmetry claim. -/
def CachePost (dist : Nat → Nat → ℚ) (edges : List (Nat × Nat))
    (st : Nat → ℚ) (log : List Nat) : Prop :=
  ∀ i a b j, edges[i]? = some (a, b) → findRev edges b a = some j →
    ((i ≤ j → st i = dist b a) ∧ (j < i → st i = dist a b)) ∧ (i ∈ log ↔ i ≤ j)

/-- Concrete adjacency list for witnesses: one symmetric pair. -/
def exEdges : List (Nat × Nat) := [(0, 1), (1, 0)]

/-- Concrete nonnegative distance function for witnesses. -/
def exDist : Nat → Nat → ℚ := fun a b => (a : ℚ) + (b : ℚ)

/-! ## Patch detection of building_adjacency (lines 649-673)

`g x` is `weights_matrix.neighbors[x]`; the object table is the list `univ`
of row indices; the `patches` dict is a function `Nat → Option Nat`. -/

/-- One-step adjacency of the order-1 weights matrix. -/
def Adjac (g : Nat → List Nat) (a b : Nat) : Prop := b ∈ g a

/-- Reachability along order-1 adjacency edges. -/
def Reach (g : Nat → List Nat) : Nat → Nat → Prop :=
  Relation.ReflTransGen (Adjac g)

/-- The inner collection loop of the patch pass (lines 665-670):

    for n in neighbours:
        while n not in to_join:
            to_join.append(n)
            for w in weights_matrix.neighbors[n]:
                neighbours.append(w)

The `while` body runs at most once per `n` (its first line puts `n` into
`to_join`), so it is an `if`; iterating a Python list that is appended to
during iteration visits every element once, which is modelled by the cursor
`i` into the growing list `nbrs`.  The loop has no structural termination
measure, so it takes explicit fuel and returns `none` when the fuel runs
out; the termination theorem shows the fuel below always suffices. -/
def joinLoop (g : Nat → List Nat) :
    Nat → List Nat → List Nat → Nat → Option (List Nat)
  | 0, _, _, _ => none
  | fuel + 1, toJoin, nbrs, i =>
    if h : i < nbrs.length then
      let n := nbrs.get ⟨i, h⟩
      if n ∈ toJoin then
        joinLoop g fuel toJoin nbrs (i + 1)
      else
        joinLoop g fuel (toJoin ++ [n]) (nbrs ++ g n) (i + 1)
    else
      some toJoin

/-- Total length of the neighbour lists of the not-yet-joined objects; the
termination measure of the collection loop decreases by exactly one per
step. -/
def restSum (g : Nat → List Nat) : List Nat → List Nat → Nat
  | [], _ => 0
  | y :: ys, toJoin => (if y ∈ toJoin then 0 else (g y).length) + restSum g ys toJoin

/-- One dict assignment `patches[b] = jID`. -/
def dictInsert (p : Nat → Option Nat) (k v : Nat) : Nat → Option Nat :=
  fun x => if x = k then some v else p x

/-- `for b in to_join: patches[b] = jID` (lines 671-672). -/
def assignPatch (toJoin : List Nat) (jID : Nat) (p : Nat → Option Nat) :
    Nat → Option Nat :=
  toJoin.foldl (fun acc b => dictInsert acc b jID) p

/-- The outer patch loop (lines 651-673): iterate the object table in row
order, skip objects already in the dict, otherwise collect the whole
transitively-touching cluster starting from `g index` and give all its
members the fresh id `jID`, then increment `jID`. -/
def patchesLoop (g : Nat → List Nat) (fuel : Nat) :
    List Nat → (Nat → Option Nat) → Nat → Option (Nat → Option Nat)
  | [], p, _ => some p
  | index :: rest, p, jID =>
    match p index with
    | some _ => patchesLoop g fuel rest p jID
    | none =>
      match joinLoop g fuel [index] (g index) 0 with
      | none => none
      | some toJoin => patchesLoop g fuel rest (assignPatch toJoin jID p) (jID + 1)

/-- Fuel sufficient for every inner collection loop: one more than the total
number of directed order-1 edges of the table (the loop does one unit of
work per queued edge endpoint). -/
def patchFuel (g : Nat → List Nat) (univ : List Nat) : Nat :=
  1 + restSum g univ []

/-- The whole patch-detection pass: `patches = {}`, `jID = 1` (lines 651-652),
then the outer loop over the object table. -/
def patchesRun (g : Nat → List Nat) (univ : List Nat) :
    Option (Nat → Option Nat) :=
  patchesLoop g (patchFuel g univ) univ (fun _ => none) 1

/-- Patch id recorded for object `x` by the patch-detection pass. -/
def patchAt (g : Nat → List Nat) (univ : List Nat) (x : Nat) : Option Nat :=
  (patchesRun g univ).bind fun p => p x

/-- Concrete order-1 graph for witnesses: objects 0 and 1 touch, 2 is
isolated. -/
def gEx : Nat → List Nat := fun n => if n = 0 then [1] else if n = 1 then [0] else []

/-- Concrete object table for witnesses. -/
def univEx : List Nat := [0, 1, 2]

/-- Invariant of the inner collection loop started at root `r`:  `toJoin` is a
duplicate-free set of objects reachable from `r` containing `r`; every queued
neighbour is reachable from `r`; the queue prefix before the cursor has been
absorbed into `toJoin`; and every edge out of `toJoin` has been queued. -/
structure JoinInv (g : Nat → List Nat) (univ : List Nat) (r : Nat)
    (toJoin nbrs : List Nat) (i : Nat) : Prop where
  nodup : toJoin.Nodup
  sub : ∀ x ∈ toJoin, x ∈ univ
  nsub : ∀ x ∈ nbrs, x ∈ univ
  reach_tj : ∀ x ∈ toJoin, Reach g r x
  reach_nb : ∀ x ∈ nbrs, Reach g r x
  root_mem : r ∈ toJoin
  processed : ∀ j (hj : j < nbrs.length), j < i → nbrs.get ⟨j, hj⟩ ∈ toJoin
  queued : ∀ x ∈ toJoin, ∀ y ∈ g x, y ∈ nbrs

/-- Invariant of the outer patch loop: assigned ids are in `[1, jID)`, equal
ids mean reachable, and reachable objects carry equal entries. -/
structure OuterInv (g : Nat → List Nat) (p : Nat → Option Nat) (jID : Nat) : Prop where
  one_le : 1 ≤ jID
  congr_reach : ∀ x y, Reach g x y → p x = p y
  inj : ∀ x y jx, p x = some jx → p y = some jx → Reach g x y
  bound : ∀ x j, p x = some j → 1 ≤ j ∧ j < jID

/-! ## Per-row aggregations and their empty-neighbourhood defaults -/

/-- `statistics.mean` (alignment, line 352) / `np.mean` (neighbour_distance,
line 410; street-orientation deviation, line 585). -/
def listMean (l : List ℚ) : ℚ := l.sum / l.length

/-- `np.nanmean` (mean_interbuilding_distance, line 501): the cached values
are real geometric distances, so the only undefined case is the empty
selection, where numpy produces NaN; modelled as `none`. -/
def nanmean (l : List ℚ) : Option ℚ :=
  if l.isEmpty then none else some (listMean l)

/-- One iteration of the `alignment` loop (lines 341-354): absolute
deviations of the neighbours' orientations from the focal one, arithmetic
mean, `0` when the deviation list is empty. -/
def alignmentRow (orientations : List ℚ) (own : ℚ) : ℚ :=
  let deviations := orientations.map (fun o => |o - own|)
  if 0 < deviations.length then listMean deviations else 0

/-- One iteration of the `neighbour_distance` loop (lines 403-412): mean
distance to the buildings on neighbouring cells, `0` when there are none. -/
def neighbourDistanceRow (dists : List ℚ) : ℚ :=
  if 0 < dists.length then listMean dists else 0

/-- One iteration of the `shared_walls_ratio` loop (lines 165-177): `0` when
the neighbour list is empty, otherwise summed intersection length divided by
the focal perimeter. -/
def sharedWallsRow (neighbors : List Nat) (interLen : Nat → ℚ) (perimeter : ℚ) : ℚ :=
  if neighbors.length = 0 then 0
  else (neighbors.map interLen).sum / perimeter

/-- One iteration of the aggregation loop of
`neighbouring_street_orientation_deviation` (lines 575-587). -/
def nsodRow (orientations : List ℚ) (own : ℚ) : ℚ :=
  let deviations := orientations.map (fun o => |o - own|)
  if 0 < deviations.length then listMean deviations else 0

/-- Lines 500-501: restrict the cached adjacency list to rows whose focal and
neighbor both lie in the order-k neighbourhood, and take the nan-mean of
their distances. -/
def mibdRow (adj : List (Nat × Nat × ℚ)) (nbhd : List Nat) : Option ℚ :=
  nanmean
    ((adj.filter (fun e => decide (e.1 ∈ nbhd) && decide (e.2.1 ∈ nbhd))).map
      (fun e => e.2.2))

/-- The final loop of `mean_interbuilding_distance` (lines 493-503), with
rows represented by their matched tessellation ids.  `neighbours` aliases
the stored list `weights_matrix_higher.neighbors[id]` and the `.append(id)`
on line 498 mutates it, so the weights-matrix state `wh` is threaded and
returned: after the call each processed id's neighbour list has gained the
id itself.  The guard `if len(neighbours) > 0` (line 499) sits after the
append. -/
def mibdFinal (adj : List (Nat × Nat × ℚ)) :
    (Nat → List Nat) → List Nat → List (Option ℚ) × (Nat → List Nat)
  | wh, [] => ([], wh)
  | wh, tid :: rest =>
    let neighbours := wh tid ++ [tid]
    let wh' := fun k => if k = tid then neighbours else wh k
    let next := mibdFinal adj wh' rest
    ((if 0 < neighbours.length then [mibdRow adj neighbours] else []) ++ next.1,
      next.2)

/-! ## Neighbour selection (focal exclusion) -/

/-- Neighbour selection of `shared_walls_ratio` (lines 166-167):
`neighbors = list(sindex.intersection(bounds)); neighbors.remove(index)` —
`list.remove` deletes the first occurrence of the focal label in place. -/
def swrNeighbors (bboxHits : List Nat) (index : Nat) : List Nat :=
  bboxHits.erase index

/-- Neighbour selection of `neighbouring_street_orientation_deviation`
(lines 570-573): bbox candidates filtered to the rows that really intersect
the focal geometry, then `neighbors.drop([index])` — `DataFrame.drop` is not
in place and its result is discarded (kept here as the unused `_dropped`),
so the set the loop iterates still contains the focal row. -/
def nsodNeighbors (bboxHits : List Nat) (intersects : Nat → Bool) (index : Nat) :
    List Nat :=
  let neighbors := bboxHits.filter intersects
  let _dropped := neighbors.filter (fun k => decide (k ≠ index))
  neighbors

/-! ## Transient columns on the input tables -/

/-- How the `perimeters` argument of `shared_walls_ratio` was supplied:
omitted, a column name, or array-like values. -/
inductive ColParam where
  | noneGiven
  | colName (s : String)
  | values
deriving DecidableEq

/-- `objects[c] = ...`: adds the column when absent (when present it only
overwrites the values, leaving the column list unchanged). -/
def addCol (cols : List String) (c : String) : List String :=
  if c ∈ cols then cols else cols ++ [c]

/-- `objects.drop(columns=[c], inplace=True)`. -/
def dropCol (cols : List String) (c : String) : List String :=
  cols.filter (fun s => decide (s ≠ c))

/-- Column set of the `objects` table after `shared_walls_ratio` returns
(lines 154-182): `mm_p` is added for an omitted or array-like `perimeters`
argument and dropped at the end (lines 180-181); `mm_uid` is added for an
array-like `unique_id` argument (lines 161-163) and never dropped. -/
def sharedWallsRatioCols (cols : List String) (perimeters : ColParam)
    (uniqueIdIsStr : Bool) : List String :=
  let cols1 :=
    match perimeters with
    | ColParam.noneGiven => addCol cols "mm_p"
    | ColParam.colName _ => cols
    | ColParam.values => addCol cols "mm_p"
  let cols2 := if uniqueIdIsStr then cols1 else addCol cols1 "mm_uid"
  if "mm_p" ∈ cols2 then dropCol cols2 "mm_p" else cols2

/-- Column set of the street table after
`neighbouring_street_orientation_deviation` returns (lines 563, 590):
`tmporient` is added; `objects.drop(['tmporient'], axis=1)` is not in place
and its result is discarded, so the column stays. -/
def nsodCols (cols : List String) : List String :=
  let cols1 := addCol cols "tmporient"
  let _dropped := dropCol cols1 "tmporient"
  cols1

/-! ## Identifier-column access -/

/-- `row[c]` on a table row modelled as an association list: the first
matching column, `none` when the column is missing (a KeyError in the
source). -/
def colGet (row : List (String × ℚ)) (c : String) : Option ℚ :=
  (row.find? (fun kv => kv.1 == c)).map (fun kv => kv.2)

/-- `row['uID']` in `alignment` (line 333): the id column name is the string
literal `uID`; the function has no parameter to change it. -/
def alignmentFocalId (row : List (String × ℚ)) : Option ℚ := colGet row "uID"

/-- `row['uID']` in `neighbour_distance` (line 404). -/
def neighbourDistanceFocalId (row : List (String × ℚ)) : Option ℚ := colGet row "uID"

/-- `row['uID']` in `mean_interbuilding_distance` (line 495). -/
def mibdFocalId (row : List (String × ℚ)) : Option ℚ := colGet row "uID"

/-- `row[unique_id]` in `building_adjacency` (line 677): the only operation
of the group that takes the id column name as a parameter. -/
def buildingAdjacencyFocalId (row : List (String × ℚ)) (uniqueId : String) :
    Option ℚ := colGet row uniqueId

/-- Concrete row whose id column is not named `uID`. -/
def exRow : List (String × ℚ) := [("myid", 7)]

end Momepy

namespace Momepy

/-! ## Lemmas about azimuth and the fold -/

theorem azimuth_range (f : ℚ → ℚ → ℚ)
    (hf : ∀ dx dy, -180 < f dx dy ∧ f dx dy ≤ 180) (p1 p2 : Pt) :
    0 ≤ azimuth f p1 p2 ∧ azimuth f p1 p2 ≤ 180 := by
  unfold azimuth
  obtain ⟨h1, h2⟩ := hf (p2.x - p1.x) (p2.y - p1.y)
  dsimp only
  split_ifs with h
  · exact ⟨le_of_lt h, h2⟩
  · push_neg at h
    constructor <;> linarith

theorem foldAz_range (az : ℚ) (h0 : 0 ≤ az) (h180 : az ≤ 180) :
    0 ≤ foldAz az ∧ foldAz az ≤ 45 := by
  unfold foldAz
  dsimp only
  split_ifs with h1 h2 h3
  · obtain ⟨ha, hb⟩ := h1
    constructor <;> linarith
  · obtain ⟨ha, hb⟩ := h2
    constructor <;> linarith
  · obtain ⟨ha, hb⟩ := h3
    constructor <;> linarith
  · -- none of the three mirrors applies: az must already lie in [0, 45)
    rcases lt_or_le az 45 with h45 | h45
    · exact ⟨h0, le_of_lt h45⟩
    · exfalso
      rcases not_and_or.mp h1 with hx | hx
      · push_neg at hx
        rcases not_and_or.mp h2 with hy | hy
        · push_neg at hy
          rcases not_and_or.mp h3 with hz | hz
          · push_neg at hz
            linarith
          · push_neg at hz
            linarith
        · push_neg at hy
          linarith
      · push_neg at hx
        linarith

/-- C1.  For every polygon bounding rectangle, the value produced by
`orientation` lies in the closed interval `[0, 45]`: the raw azimuth of the
longer rectangle axis, after the three-stage mirroring about 45, 90 and 135
degrees, is a canonical deviation-from-cardinal value between 0 and 45
inclusive.  The hypothesis is the documented range of the external
`degrees ∘ arctan2` collaborator. -/
theorem orientation_range (f : ℚ → ℚ → ℚ)
    (hf : ∀ dx dy, -180 < f dx dy ∧ f dx dy ≤ 180) (bbox : BBox) :
    0 ≤ orientationRow f bbox ∧ orientationRow f bbox ≤ 45 := by
  unfold orientationRow
  dsimp only
  split_ifs
  · obtain ⟨h0, h1⟩ := azimuth_range f hf (midpoint bbox.b bbox.c) (midpoint bbox.d bbox.a)
    exact foldAz_range _ h0 h1
  · obtain ⟨h0, h1⟩ := azimuth_range f hf (midpoint bbox.a bbox.b) (midpoint bbox.c bbox.d)
    exact foldAz_range _ h0 h1

/-- Witness for C1: the modelled collaborator satisfies the range hypothesis,
and on a concrete unit square the orientation value lies in `[0, 45]`. -/
theorem orientation_range_witness :
    (∀ dx dy : ℚ, -180 < arctan2Deg dx dy ∧ arctan2Deg dx dy ≤ 180) ∧
    (0 ≤ orientationRow arctan2Deg exBBox ∧ orientationRow arctan2Deg exBBox ≤ 45) := by
  refine ⟨fun dx dy => by norm_num [arctan2Deg], ?_⟩
  exact orientation_range arctan2Deg (fun dx dy => by norm_num [arctan2Deg]) exBBox

/-- C7 (amended).  For a geometry whose minimum bounding rectangle degenerates
to a single point (both axes have zero length), `orientation` does not fail:
`arctan2(0,0) = 0` makes the azimuth helper return `0 + 180 = 180`, the
three-stage fold maps 180 to 0, and the loop appends 0 for that object. -/
theorem orientation_degenerate_silent_zero (f : ℚ → ℚ → ℚ)
    (hf : f 0 0 = 0) (p : Pt) :
    orientationRow f ⟨p, p, p, p⟩ = 0 := by
  have hmid : midpoint p p = p := by
    cases p
    unfold midpoint
    congr 1 <;> ring
  have hsq : sqDist p p = 0 := by
    simp [sqDist]
  have haz : azimuth f p p = 180 := by
    unfold azimuth
    simp [hf]
  unfold orientationRow
  dsimp only
  simp only [hmid, hsq, le_refl, if_pos, haz]
  norm_num [foldAz]

/-- Counterexample for C7 as stated: on the degenerate (single-point) bounding
rectangle the embedded `orientation` silently produces the value 0 — the
azimuth helper yields 180 for the zero-length axis instead of failing. -/
theorem orientation_degenerate_counterexample :
    azimuth arctan2Deg ⟨0, 0⟩ ⟨0, 0⟩ = 180 ∧
    orientationRow arctan2Deg ⟨⟨0, 0⟩, ⟨0, 0⟩, ⟨0, 0⟩, ⟨0, 0⟩⟩ = 0 := by
  constructor
  · norm_num [azimuth, arctan2Deg]
  · norm_num [orientationRow, midpoint, sqDist, azimuth, arctan2Deg, foldAz]

/-- Witness for C7's amended theorem at a concrete input. -/
theorem orientation_degenerate_silent_zero_witness :
    arctan2Deg 0 0 = 0 ∧
    orientationRow arctan2Deg ⟨⟨1, 2⟩, ⟨1, 2⟩, ⟨1, 2⟩, ⟨1, 2⟩⟩ = 0 :=
  ⟨rfl, orientation_degenerate_silent_zero arctan2Deg rfl ⟨1, 2⟩⟩

/-! ## Lemmas about the pairwise edge cache -/

theorem findRev_sound (edges : List (Nat × Nat)) (b a : Nat) :
    ∀ j, findRev edges b a = some j → edges[j]? = some (b, a) := by
  induction edges with
  | nil => intro j h; simp [findRev] at h
  | cons e rest ih =>
    intro j h
    unfold findRev at h
    split_ifs at h with hc
    · simp only [Option.some.injEq] at h
      subst h
      simp [Prod.ext_iff, hc.1, hc.2]
    · rw [Option.map_eq_some'] at h
      obtain ⟨j', hj', rfl⟩ := h
      simpa using ih j' hj'

theorem findRev_isSome (edges : List (Nat × Nat)) (b a : Nat)
    (h : (b, a) ∈ edges) : ∃ j, findRev edges b a = some j := by
  induction edges with
  | nil => simp at h
  | cons e rest ih =>
    by_cases hc : e.1 = b ∧ e.2 = a
    · exact ⟨0, by simp [findRev, hc]⟩
    · rcases List.mem_cons.mp h with he | he
      · exact absurd (by rw [← he]; exact ⟨rfl, rfl⟩) hc
      · obtain ⟨j, hj⟩ := ih he
        exact ⟨j + 1, by simp [findRev, hc, hj]⟩

theorem findRev_of_getElem? (edges : List (Nat × Nat)) (hnd : edges.Nodup) :
    ∀ j b a, edges[j]? = some (b, a) → findRev edges b a = some j := by
  induction edges with
  | nil => intro j b a h; simp at h
  | cons e rest ih =>
    intro j b a h
    obtain ⟨hne, hnd'⟩ := List.nodup_cons.mp hnd
    cases j with
    | zero =>
      simp only [List.getElem?_cons_zero, Option.some.injEq] at h
      subst h
      simp [findRev]
    | succ j =>
      simp only [List.getElem?_cons_succ] at h
      have hmem : (b, a) ∈ rest := List.getElem?_mem h
      have hc : ¬(e.1 = b ∧ e.2 = a) := by
        rintro ⟨h1, h2⟩
        apply hne
        have he : e = (b, a) := Prod.ext h1 h2
        rw [he]; exact hmem
      simp [findRev, hc, ih hnd' j b a h]

theorem fillGo_cons_some (dist : Nat → Nat → ℚ) (edges : List (Nat × Nat))
    (i : Nat) (e : Nat × Nat) (rest : List (Nat × (Nat × Nat)))
    (st : Nat → ℚ) (log : List Nat) (j : Nat)
    (hj : findRev edges e.2 e.1 = some j) :
    fillGo dist edges ((i, e) :: rest) st log =
      if st j = -1 then
        fillGo dist edges rest (upd st i (dist e.2 e.1)) (log ++ [i])
      else
        fillGo dist edges rest (upd st i (st j)) log := by
  conv_lhs => rw [fillGo]
  rw [hj]

theorem fillGo_spec (dist : Nat → Nat → ℚ) (edges : List (Nat × Nat))
    (hnd : edges.Nodup)
    (hsym : ∀ e ∈ edges, (e.2, e.1) ∈ edges)
    (hpos : ∀ a b, 0 ≤ dist a b) :
    ∀ suf k st log, edges.drop k = suf → CacheInv dist edges k st log →
      CachePost dist edges
        (fillGo dist edges (List.enumFrom k suf) st log).1
        (fillGo dist edges (List.enumFrom k suf) st log).2 := by
  intro suf
  induction suf with
  | nil =>
    intro k st log hdrop hinv
    obtain ⟨h1, h2, h3⟩ := hinv
    have hlen : edges.length ≤ k := List.drop_eq_nil_iff.mp hdrop
    have hred : fillGo dist edges (List.enumFrom k []) st log = (st, log) := rfl
    rw [hred]
    dsimp only
    intro i a b j hget hrev
    have hik : i < k := lt_of_lt_of_le (List.getElem?_eq_some.mp hget).1 hlen
    refine ⟨h2 i a b j hik hget hrev, ?_⟩
    rw [h3 i]
    constructor
    · rintro ⟨a', b', j', _, hget', hrev', hij'⟩
      rw [hget] at hget'
      simp only [Option.some.injEq, Prod.mk.injEq] at hget'
      obtain ⟨rfl, rfl⟩ := hget'
      rw [hrev] at hrev'
      simp only [Option.some.injEq] at hrev'
      omega
    · intro hij; exact ⟨a, b, j, hik, hget, hrev, hij⟩
  | cons e rest ih =>
    intro k st log hdrop hinv
    obtain ⟨h1, h2, h3⟩ := hinv
    have hgetk : edges[k]? = some e := by
      have h := (List.getElem?_drop edges k 0).symm
      rw [hdrop] at h
      simpa using h
    have hdrop' : edges.drop (k + 1) = rest := by
      rw [← List.tail_drop, hdrop]
      rfl
    have hmemk : e ∈ edges := List.getElem?_mem hgetk
    obtain ⟨j, hj⟩ := findRev_isSome edges e.2 e.1 (hsym e hmemk)
    have hgetj : edges[j]? = some (e.2, e.1) := findRev_sound edges e.2 e.1 j hj
    have hrev2 : findRev edges e.1 e.2 = some k := by
      have hk : edges[k]? = some (e.1, e.2) := by simpa using hgetk
      exact findRev_of_getElem? edges hnd k e.1 e.2 hk
    have hstep : List.enumFrom k (e :: rest) =
        (k, e) :: List.enumFrom (k + 1) rest := rfl
    rw [hstep, fillGo_cons_some dist edges k e _ st log j hj]
    by_cases hst : st j = -1
    · -- fresh computation: the reverse row has not been processed yet
      rw [if_pos hst]
      have hkj : k ≤ j := by
        by_contra hc
        push_neg at hc
        have := (h2 j e.2 e.1 k hc hgetj hrev2).1 (le_of_lt hc)
        rw [this] at hst
        have := hpos e.1 e.2
        rw [hst] at this
        norm_num at this
      apply ih (k + 1) _ _ hdrop'
      refine ⟨?_, ?_, ?_⟩
      · intro i hi
        unfold upd
        rw [if_neg (by omega)]
        exact h1 i (by omega)
      · intro i a b j' hik1 hget hrev'
        by_cases hik : i = k
        · subst hik
          rw [hgetk] at hget
          simp only [Option.some.injEq] at hget
          have ha : a = e.1 := by rw [hget]
          have hb : b = e.2 := by rw [hget]
          subst ha; subst hb
          rw [hj] at hrev'
          simp only [Option.some.injEq] at hrev'
          subst hrev'
          constructor
          · intro _
            unfold upd
            rw [if_pos rfl]
          · intro hji
            omega
        · have hik' : i < k := by omega
          have hold := h2 i a b j' hik' hget hrev'
          unfold upd
          rw [if_neg hik]
          exact hold
      · intro i
        simp only [List.mem_append, List.mem_singleton]
        constructor
        · rintro (hl | rfl)
          · obtain ⟨a, b, j', hik, hg, hr, hij⟩ := (h3 i).mp hl
            exact ⟨a, b, j', by omega, hg, hr, hij⟩
          · exact ⟨e.1, e.2, j, by omega, by simpa using hgetk, by simpa using hj, hkj⟩
        · rintro ⟨a, b, j', hik1, hg, hr, hij⟩
          by_cases hik : i = k
          · right; exact hik
          · left
            exact (h3 i).mpr ⟨a, b, j', by omega, hg, hr, hij⟩
    · -- the reverse row was already processed: copy its value
      rw [if_neg hst]
      have hjk : j < k := by
        by_contra hc
        push_neg at hc
        exact hst (h1 j hc)
      have hstj : st j = dist e.1 e.2 :=
        (h2 j e.2 e.1 k hjk hgetj hrev2).1 (le_of_lt hjk)
      apply ih (k + 1) _ _ hdrop'
      refine ⟨?_, ?_, ?_⟩
      · intro i hi
        unfold upd
        rw [if_neg (by omega)]
        exact h1 i (by omega)
      · intro i a b j' hik1 hget hrev'
        by_cases hik : i = k
        · subst hik
          rw [hgetk] at hget
          simp only [Option.some.injEq] at hget
          have ha : a = e.1 := by rw [hget]
          have hb : b = e.2 := by rw [hget]
          subst ha; subst hb
          rw [hj] at hrev'
          simp only [Option.some.injEq] at hrev'
          subst hrev'
          constructor
          · intro hkj
            omega
          · intro _
            unfold upd
            rw [if_pos rfl]
            exact hstj
        · have hik' : i < k := by omega
          have hold := h2 i a b j' hik' hget hrev'
          unfold upd
          rw [if_neg hik]
          exact hold
      · intro i
        rw [h3 i]
        constructor
        · rintro ⟨a, b, j', hik, hg, hr, hij⟩
          exact ⟨a, b, j', by omega, hg, hr, hij⟩
        · rintro ⟨a, b, j', hik1, hg, hr, hij⟩
          by_cases hik : i = k
          · subst hik
            rw [hgetk] at hg
            simp only [Option.some.injEq] at hg
            have ha : a = e.1 := by rw [hg]
            have hb : b = e.2 := by rw [hg]
            subst ha; subst hb
            rw [hj] at hr
            simp only [Option.some.injEq] at hr
            omega
          · exact ⟨a, b, j', by omega, hg, hr, hij⟩

/-- C3.  In the pairwise edge cache built by `mean_interbuilding_distance`
over the directed edge list of a symmetric order-1 graph, the stored distance
of every edge equals the stored distance of its reverse edge, and the
geometric distance of each unordered pair is computed exactly once: the
direction processed first (the smaller row position) triggers the computation
(it is in the ghost log) and the direction processed second copies the stored
value (it is not in the log). -/
theorem mibd_edge_cache_symmetric (dist : Nat → Nat → ℚ) (edges : List (Nat × Nat))
    (hnd : edges.Nodup)
    (hsym : ∀ e ∈ edges, (e.2, e.1) ∈ edges)
    (hpos : ∀ a b, 0 ≤ dist a b)
    (i j a b : Nat)
    (hi : edges[i]? = some (a, b)) (hj : edges[j]? = some (b, a)) :
    (fillAll dist edges).1 i = (fillAll dist edges).1 j ∧
    (i < j → i ∈ (fillAll dist edges).2 ∧ j ∉ (fillAll dist edges).2) := by
  have hpost : CachePost dist edges (fillAll dist edges).1 (fillAll dist edges).2 := by
    have h0 : CacheInv dist edges 0 (fun _ => -1) [] := by
      refine ⟨fun i _ => rfl, fun i a b j hik => absurd hik (Nat.not_lt_zero i), ?_⟩
      intro i
      simp
    have h := fillGo_spec dist edges hnd hsym hpos edges 0 (fun _ => (-1 : ℚ)) [] (by simp) h0
    simpa [fillAll, List.enum] using h
  have hrevi : findRev edges b a = some j := findRev_of_getElem? edges hnd j b a hj
  have hrevj : findRev edges a b = some i := findRev_of_getElem? edges hnd i a b hi
  obtain ⟨⟨hile, higt⟩, hilog⟩ := hpost i a b j hi hrevi
  obtain ⟨⟨hjle, hjgt⟩, hjlog⟩ := hpost j b a i hj hrevj
  rcases Nat.lt_trichotomy i j with hlt | heq | hgt
  · refine ⟨?_, fun _ => ⟨hilog.mpr (le_of_lt hlt), fun hc => ?_⟩⟩
    · rw [hile (le_of_lt hlt), hjgt hlt]
    · have := hjlog.mp hc
      omega
  · subst heq
    exact ⟨rfl, fun h => absurd h (lt_irrefl _)⟩
  · refine ⟨?_, fun h => absurd h (by omega)⟩
    rw [higt hgt, hjle (le_of_lt hgt)]

/-- Witness for C3 at a concrete two-edge symmetric adjacency list. -/
theorem mibd_edge_cache_symmetric_witness :
    exEdges.Nodup ∧
    (fillAll exDist exEdges).1 0 = (fillAll exDist exEdges).1 1 ∧
    0 ∈ (fillAll exDist exEdges).2 ∧ 1 ∉ (fillAll exDist exEdges).2 := by
  have hpos : ∀ a b : Nat, 0 ≤ exDist a b := by
    intro a b
    unfold exDist
    positivity
  have h := mibd_edge_cache_symmetric exDist exEdges (by decide) (by decide)
    hpos 0 1 0 1 rfl rfl
  exact ⟨by decide, h.1, h.2 (by norm_num)⟩

/-! ## Lemmas about patch detection -/

theorem restSum_congr (g : Nat → List Nat) :
    ∀ univ tj₁ tj₂, (∀ z ∈ univ, (z ∈ tj₁ ↔ z ∈ tj₂)) →
      restSum g univ tj₁ = restSum g univ tj₂ := by
  intro univ
  induction univ with
  | nil => intro _ _ _; rfl
  | cons y ys ih =>
    intro tj₁ tj₂ h
    unfold restSum
    rw [ih tj₁ tj₂ (fun z hz => h z (List.mem_cons_of_mem y hz))]
    by_cases hy : y ∈ tj₁
    · rw [if_pos hy, if_pos ((h y (List.mem_cons_self y ys)).mp hy)]
    · rw [if_neg hy, if_neg (fun hc => hy ((h y (List.mem_cons_self y ys)).mpr hc))]

theorem restSum_append_new (g : Nat → List Nat) :
    ∀ univ toJoin n, univ.Nodup → n ∈ univ → n ∉ toJoin →
      restSum g univ (toJoin ++ [n]) + (g n).length = restSum g univ toJoin := by
  intro univ
  induction univ with
  | nil => intro toJoin n _ hn; simp at hn
  | cons y ys ih =>
    intro toJoin n hnd hn hnotin
    obtain ⟨hy_notin, hnd'⟩ := List.nodup_cons.mp hnd
    unfold restSum
    rcases List.mem_cons.mp hn with rfl | hn'
    · rw [if_neg hnotin, if_pos (by simp)]
      have hcongr : restSum g ys (toJoin ++ [n]) = restSum g ys toJoin := by
        apply restSum_congr
        intro z hz
        have hzn : z ≠ n := fun hzz => hy_notin (hzz ▸ hz)
        simp [List.mem_append, hzn]
      rw [hcongr]
      omega
    · have hyn : y ≠ n := fun h => hy_notin (h ▸ hn')
      have hrec := ih toJoin n hnd' hn' hnotin
      by_cases hyt : y ∈ toJoin
      · rw [if_pos hyt, if_pos (List.mem_append_left _ hyt)]
        omega
      · have hy_ne : y ∉ toJoin ++ [n] := by
          simp [List.mem_append, hyt, hyn]
        rw [if_neg hyt, if_neg hy_ne]
        omega

theorem joinLoop_succ (g : Nat → List Nat) (fuel : Nat)
    (toJoin nbrs : List Nat) (i : Nat) :
    joinLoop g (fuel + 1) toJoin nbrs i =
      if h : i < nbrs.length then
        (if nbrs.get ⟨i, h⟩ ∈ toJoin then joinLoop g fuel toJoin nbrs (i + 1)
         else joinLoop g fuel (toJoin ++ [nbrs.get ⟨i, h⟩])
           (nbrs ++ g (nbrs.get ⟨i, h⟩)) (i + 1))
      else some toJoin := rfl

theorem joinLoop_spec (g : Nat → List Nat) (univ : List Nat)
    (hnd : univ.Nodup) (hclosed : ∀ a b, b ∈ g a → b ∈ univ) (r : Nat) :
    ∀ fuel toJoin nbrs i, JoinInv g univ r toJoin nbrs i →
      restSum g univ toJoin + (nbrs.length - i) < fuel →
      ∃ T, joinLoop g fuel toJoin nbrs i = some T ∧
        (∀ x ∈ toJoin, x ∈ T) ∧ T.Nodup ∧ (∀ x ∈ T, x ∈ univ) ∧
        (∀ x ∈ T, Reach g r x) ∧ r ∈ T ∧
        (∀ x ∈ T, ∀ y ∈ g x, y ∈ T) := by
  intro fuel
  induction fuel with
  | zero => intro toJoin nbrs i _ hf; omega
  | succ fuel ih =>
    intro toJoin nbrs i hinv hf
    by_cases h : i < nbrs.length
    · by_cases hmem : nbrs.get ⟨i, h⟩ ∈ toJoin
      · -- already joined: advance the cursor
        rw [joinLoop_succ, dif_pos h, if_pos hmem]
        obtain ⟨T, hT, hsub, hprops⟩ := ih toJoin nbrs (i + 1)
          { hinv with
            processed := fun j hj hji => by
              rcases Nat.lt_or_ge j i with hlt | hge
              · exact hinv.processed j hj hlt
              · have hji' : j = i := by omega
                subst hji'
                exact hmem }
          (by omega)
        exact ⟨T, hT, hsub, hprops⟩
      · -- join the new object and queue its neighbours
        rw [joinLoop_succ, dif_pos h, if_neg hmem]
        have hnu : nbrs.get ⟨i, h⟩ ∈ univ :=
          hinv.nsub _ (nbrs.get_mem i h)
        have hreach_n : Reach g r (nbrs.get ⟨i, h⟩) :=
          hinv.reach_nb _ (nbrs.get_mem i h)
        have hinv' : JoinInv g univ r (toJoin ++ [nbrs.get ⟨i, h⟩])
            (nbrs ++ g (nbrs.get ⟨i, h⟩)) (i + 1) := by
          refine ⟨?_, ?_, ?_, ?_, ?_, ?_, ?_, ?_⟩
          · rw [List.nodup_append]
            refine ⟨hinv.nodup, List.nodup_singleton _, ?_⟩
            intro a ha hb
            rw [List.mem_singleton] at hb
            subst hb
            exact hmem ha
          · intro x hx
            rcases List.mem_append.mp hx with hx' | hx'
            · exact hinv.sub x hx'
            · rw [List.mem_singleton] at hx'
              subst hx'
              exact hnu
          · intro x hx
            rcases List.mem_append.mp hx with hx' | hx'
            · exact hinv.nsub x hx'
            · exact hclosed _ x hx'
          · intro x hx
            rcases List.mem_append.mp hx with hx' | hx'
            · exact hinv.reach_tj x hx'
            · rw [List.mem_singleton] at hx'
              subst hx'
              exact hreach_n
          · intro x hx
            rcases List.mem_append.mp hx with hx' | hx'
            · exact hinv.reach_nb x hx'
            · exact Relation.ReflTransGen.tail hreach_n hx'
          · exact List.mem_append_left _ hinv.root_mem
          · intro j hj hji
            have hjlen : j < nbrs.length := by omega
            rw [List.get_append j hjlen]
            rcases Nat.lt_or_ge j i with hlt | hge
            · exact List.mem_append_left _ (hinv.processed j hjlen hlt)
            · have hji' : j = i := by omega
              subst hji'
              exact List.mem_append_right _ (List.mem_singleton_self _)
          · intro x hx y hy
            rcases List.mem_append.mp hx with hx' | hx'
            · exact List.mem_append_left _ (hinv.queued x hx' y hy)
            · rw [List.mem_singleton] at hx'
              subst hx'
              exact List.mem_append_right _ hy
        have heq := restSum_append_new g univ toJoin (nbrs.get ⟨i, h⟩) hnd hnu hmem
        have hlen : (nbrs ++ g (nbrs.get ⟨i, h⟩)).length
            = nbrs.length + (g (nbrs.get ⟨i, h⟩)).length := List.length_append _ _
        obtain ⟨T, hT, hsub, hprops⟩ := ih _ _ (i + 1) hinv' (by omega)
        refine ⟨T, hT, ?_, hprops⟩
        intro x hx
        exact hsub x (List.mem_append_left _ hx)
    · -- cursor ran off the queue: return the collected cluster
      rw [joinLoop_succ, dif_neg h]
      refine ⟨toJoin, rfl, fun x hx => hx, hinv.nodup, hinv.sub, hinv.reach_tj,
        hinv.root_mem, ?_⟩
      intro x hx y hy
      have hynb : y ∈ nbrs := hinv.queued x hx y hy
      obtain ⟨⟨j, hj⟩, hget⟩ := List.mem_iff_get.mp hynb
      rw [← hget]
      exact hinv.processed j hj (by omega)

theorem reach_mem_of_closed (g : Nat → List Nat) (T : List Nat)
    (hcl : ∀ x ∈ T, ∀ y ∈ g x, y ∈ T) (r : Nat) (hr : r ∈ T) :
    ∀ x, Reach g r x → x ∈ T := by
  intro x hx
  induction hx with
  | refl => exact hr
  | tail _ hbc ih => exact hcl _ ih _ hbc

theorem joinLoop_component (g : Nat → List Nat) (univ : List Nat)
    (hnd : univ.Nodup) (hclosed : ∀ a b, b ∈ g a → b ∈ univ)
    (r : Nat) (hr : r ∈ univ) :
    ∃ T, joinLoop g (patchFuel g univ) [r] (g r) 0 = some T ∧
      (∀ x, x ∈ T ↔ Reach g r x) ∧ (∀ x ∈ T, x ∈ univ) ∧ T.Nodup := by
  have hinv : JoinInv g univ r [r] (g r) 0 := by
    refine ⟨List.nodup_singleton r, ?_, ?_, ?_, ?_, List.mem_singleton_self r, ?_, ?_⟩
    · intro x hx
      rw [List.mem_singleton] at hx
      subst hx
      exact hr
    · exact fun x hx => hclosed r x hx
    · intro x hx
      rw [List.mem_singleton] at hx
      subst hx
      exact Relation.ReflTransGen.refl
    · exact fun x hx => Relation.ReflTransGen.single hx
    · exact fun j hj hji => absurd hji (Nat.not_lt_zero j)
    · intro x hx y hy
      rw [List.mem_singleton] at hx
      subst hx
      exact hy
  have hfuel : restSum g univ [r] + ((g r).length - 0) < patchFuel g univ := by
    have heq := restSum_append_new g univ [] r hnd hr (List.not_mem_nil r)
    simp only [List.nil_append] at heq
    unfold patchFuel
    omega
  obtain ⟨T, hT, _, hnodup, hTuniv, hreach, hrT, hcl⟩ :=
    joinLoop_spec g univ hnd hclosed r (patchFuel g univ) [r] (g r) 0 hinv hfuel
  refine ⟨T, hT, ?_, hTuniv, hnodup⟩
  intro x
  exact ⟨hreach x, reach_mem_of_closed g T hcl r hrT x⟩

theorem reach_symm (g : Nat → List Nat) (hsym : ∀ a b, b ∈ g a → a ∈ g b) :
    ∀ x y, Reach g x y → Reach g y x := by
  intro x y h
  induction h with
  | refl => exact Relation.ReflTransGen.refl
  | tail _ hbc ih => exact Relation.ReflTransGen.head (hsym _ _ hbc) ih

theorem assignPatch_apply (toJoin : List Nat) (jID : Nat) (p : Nat → Option Nat) :
    ∀ x, assignPatch toJoin jID p x = if x ∈ toJoin then some jID else p x := by
  induction toJoin generalizing p with
  | nil => intro x; simp [assignPatch]
  | cons b bs ih =>
    intro x
    unfold assignPatch
    simp only [List.foldl_cons]
    have hrec := ih (dictInsert p b jID) x
    unfold assignPatch at hrec
    rw [hrec]
    by_cases hx : x ∈ b :: bs
    · rw [if_pos hx]
      rcases List.mem_cons.mp hx with rfl | hxs
      · by_cases hxbs : x ∈ bs
        · rw [if_pos hxbs]
        · rw [if_neg hxbs]
          unfold dictInsert
          rw [if_pos rfl]
      · rw [if_pos hxs]
    · have h1 : x ∉ bs := fun hmem => hx (List.mem_cons_of_mem b hmem)
      have h2 : x ≠ b := fun hmem => hx (hmem ▸ List.mem_cons_self b bs)
      rw [if_neg hx, if_neg h1]
      unfold dictInsert
      rw [if_neg h2]

theorem patchesLoop_cons_assigned (g : Nat → List Nat) (fuel index : Nat)
    (rest : List Nat) (p : Nat → Option Nat) (jID j : Nat) (h : p index = some j) :
    patchesLoop g fuel (index :: rest) p jID = patchesLoop g fuel rest p jID := by
  conv_lhs => rw [patchesLoop]
  rw [h]

theorem patchesLoop_cons_fresh (g : Nat → List Nat) (fuel index : Nat)
    (rest : List Nat) (p : Nat → Option Nat) (jID : Nat) (T : List Nat)
    (h : p index = none) (hT : joinLoop g fuel [index] (g index) 0 = some T) :
    patchesLoop g fuel (index :: rest) p jID =
      patchesLoop g fuel rest (assignPatch T jID p) (jID + 1) := by
  conv_lhs => rw [patchesLoop]
  rw [h, hT]

theorem patchesLoop_spec (g : Nat → List Nat) (univ : List Nat)
    (hnd : univ.Nodup) (hclosed : ∀ a b, b ∈ g a → b ∈ univ)
    (hsym : ∀ a b, b ∈ g a → a ∈ g b) :
    ∀ rest p jID, (∀ x ∈ rest, x ∈ univ) → OuterInv g p jID →
      ∃ q jF, patchesLoop g (patchFuel g univ) rest p jID = some q ∧
        OuterInv g q jF ∧
        (∀ x ∈ rest, (q x).isSome) ∧
        (∀ x, (p x).isSome → (q x).isSome) := by
  intro rest
  induction rest with
  | nil =>
    intro p jID _ hinv
    exact ⟨p, jID, rfl, hinv, by simp, fun x hx => hx⟩
  | cons index rest ih =>
    intro p jID hsub hinv
    have hsub' : ∀ x ∈ rest, x ∈ univ := fun x hx => hsub x (List.mem_cons_of_mem _ hx)
    cases hp : p index with
    | some j =>
      rw [patchesLoop_cons_assigned g _ index rest p jID j hp]
      obtain ⟨q, jF, hq, hinvq, hrest, hmono⟩ := ih p jID hsub' hinv
      refine ⟨q, jF, hq, hinvq, ?_, hmono⟩
      intro x hx
      rcases List.mem_cons.mp hx with rfl | hx'
      · exact hmono x (by rw [hp]; rfl)
      · exact hrest x hx'
    | none =>
      have hr : index ∈ univ := hsub index (List.mem_cons_self _ _)
      obtain ⟨T, hT, hTiff, hTuniv, hTnodup⟩ :=
        joinLoop_component g univ hnd hclosed index hr
      rw [patchesLoop_cons_fresh g _ index rest p jID T hp hT]
      have hp'x : ∀ x, assignPatch T jID p x = if x ∈ T then some jID else p x :=
        assignPatch_apply T jID p
      have hinv' : OuterInv g (assignPatch T jID p) (jID + 1) := by
        refine ⟨by omega, ?_, ?_, ?_⟩
        · intro x y hxy
          rw [hp'x x, hp'x y]
          by_cases hxT : x ∈ T
          · have hyT : y ∈ T := (hTiff y).mpr
              (Relation.ReflTransGen.trans ((hTiff x).mp hxT) hxy)
            rw [if_pos hxT, if_pos hyT]
          · have hyT : y ∉ T := by
              intro hyT
              exact hxT ((hTiff x).mpr (Relation.ReflTransGen.trans
                ((hTiff y).mp hyT) (reach_symm g hsym x y hxy)))
            rw [if_neg hxT, if_neg hyT]
            exact hinv.congr_reach x y hxy
        · intro x y jx hx hy
          rw [hp'x x] at hx
          rw [hp'x y] at hy
          by_cases hxT : x ∈ T
          · rw [if_pos hxT] at hx
            by_cases hyT : y ∈ T
            · exact Relation.ReflTransGen.trans
                (reach_symm g hsym index x ((hTiff x).mp hxT)) ((hTiff y).mp hyT)
            · rw [if_neg hyT] at hy
              simp only [Option.some.injEq] at hx
              subst hx
              obtain ⟨_, hlt⟩ := hinv.bound y jID hy
              omega
          · rw [if_neg hxT] at hx
            by_cases hyT : y ∈ T
            · rw [if_pos hyT] at hy
              simp only [Option.some.injEq] at hy
              subst hy
              obtain ⟨_, hlt⟩ := hinv.bound x jID hx
              omega
            · rw [if_neg hyT] at hy
              exact hinv.inj x y jx hx hy
        · intro x j hx
          rw [hp'x x] at hx
          by_cases hxT : x ∈ T
          · rw [if_pos hxT] at hx
            simp only [Option.some.injEq] at hx
            subst hx
            exact ⟨hinv.one_le, by omega⟩
          · rw [if_neg hxT] at hx
            obtain ⟨h1, h2⟩ := hinv.bound x j hx
            exact ⟨h1, by omega⟩
      obtain ⟨q, jF, hq, hinvq, hrest, hmono⟩ := ih (assignPatch T jID p) (jID + 1) hsub' hinv'
      refine ⟨q, jF, hq, hinvq, ?_, ?_⟩
      · intro x hx
        rcases List.mem_cons.mp hx with rfl | hx'
        · apply hmono
          rw [hp'x x, if_pos ((hTiff x).mpr Relation.ReflTransGen.refl)]
          rfl
        · exact hrest x hx'
      · intro x hx
        apply hmono
        rw [hp'x x]
        by_cases hxT : x ∈ T
        · rw [if_pos hxT]; rfl
        · rw [if_neg hxT]; exact hx

/-- C2.  The patch-detection pass of `building_adjacency` assigns every object
in the table exactly one positive patch id, and two objects receive the same
patch id if and only if they are connected by a path of order-1 adjacency
edges — so patch ids partition the object set and an object with no order-1
neighbours forms a singleton patch. -/
theorem building_adjacency_patches (g : Nat → List Nat) (univ : List Nat)
    (hnd : univ.Nodup)
    (hclosed : ∀ a b, b ∈ g a → b ∈ univ)
    (hsym : ∀ a b, b ∈ g a → a ∈ g b) :
    (∀ x ∈ univ, ∃ j, patchAt g univ x = some j ∧ 1 ≤ j) ∧
    (∀ x ∈ univ, ∀ y ∈ univ, (patchAt g univ x = patchAt g univ y ↔ Reach g x y)) := by
  have hinv0 : OuterInv g (fun _ => none) 1 := by
    refine ⟨le_refl 1, fun _ _ _ => rfl, ?_, ?_⟩
    · intro x y jx hx
      exact absurd hx (by simp)
    · intro x j hx
      exact absurd hx (by simp)
  obtain ⟨q, jF, hq, hinvq, hall, _⟩ :=
    patchesLoop_spec g univ hnd hclosed hsym univ (fun _ => none) 1
      (fun x hx => hx) hinv0
  have hat : ∀ x, patchAt g univ x = q x := by
    intro x
    unfold patchAt patchesRun
    rw [hq]
    rfl
  constructor
  · intro x hx
    obtain ⟨j, hj⟩ := Option.isSome_iff_exists.mp (hall x hx)
    exact ⟨j, by rw [hat x]; exact hj, (hinvq.bound x j hj).1⟩
  · intro x hx y hy
    rw [hat x, hat y]
    constructor
    · intro hxy
      obtain ⟨jx, hjx⟩ := Option.isSome_iff_exists.mp (hall x hx)
      exact hinvq.inj x y jx hjx (hxy ▸ hjx)
    · exact hinvq.congr_reach x y

/-- C9.  For every finite symmetric order-1 adjacency graph over the object
table, the patch-detection loop of `building_adjacency` terminates: the fuel
`patchFuel` — one more than the total number of queued edge endpoints — is
enough for every inner collection loop, because each object joins `to_join`
at most once and the `neighbours` list grows only when a new object joins. -/
theorem building_adjacency_patch_loop_terminates (g : Nat → List Nat)
    (univ : List Nat) (hnd : univ.Nodup)
    (hclosed : ∀ a b, b ∈ g a → b ∈ univ)
    (hsym : ∀ a b, b ∈ g a → a ∈ g b) :
    (patchesRun g univ).isSome := by
  obtain ⟨q, jF, hq, _, _, _⟩ :=
    patchesLoop_spec g univ hnd hclosed hsym univ (fun _ => none) 1
      (fun x hx => hx)
      (by refine ⟨le_refl 1, fun _ _ _ => rfl, ?_, ?_⟩
          · intro x y jx hx
            exact absurd hx (by simp)
          · intro x j hx
            exact absurd hx (by simp))
  unfold patchesRun
  rw [hq]
  rfl

theorem gEx_closed : ∀ a b : Nat, b ∈ gEx a → b ∈ univEx := by
  intro a b h
  unfold gEx at h
  split_ifs at h
  · rw [List.mem_singleton] at h
    subst h
    decide
  · rw [List.mem_singleton] at h
    subst h
    decide
  · exact absurd h (List.not_mem_nil b)

theorem gEx_symm : ∀ a b : Nat, b ∈ gEx a → a ∈ gEx b := by
  intro a b h
  unfold gEx at h
  split_ifs at h with h0 h1
  · rw [List.mem_singleton] at h
    subst h
    subst h0
    decide
  · rw [List.mem_singleton] at h
    subst h
    subst h1
    decide
  · exact absurd h (List.not_mem_nil b)

/-- Witness for C2: on a concrete three-object table where 0 touches 1 and 2
is isolated, the two touching objects share a patch id. -/
theorem building_adjacency_patches_witness :
    univEx.Nodup ∧ patchAt gEx univEx 0 = patchAt gEx univEx 1 := by
  refine ⟨by decide, ?_⟩
  exact ((building_adjacency_patches gEx univEx (by decide) gEx_closed gEx_symm).2
    0 (by decide) 1 (by decide)).mpr
    (Relation.ReflTransGen.single (show (1 : Nat) ∈ gEx 0 by decide))

/-- Witness for C9: the patch pass completes on the concrete graph. -/
theorem patch_loop_terminates_witness :
    univEx.Nodup ∧ (patchesRun gEx univEx).isSome :=
  ⟨by decide,
    building_adjacency_patch_loop_terminates gEx univEx (by decide) gEx_closed gEx_symm⟩

/-! ## Empty-neighbourhood defaults, row counts, focal exclusion, columns -/

/-- C6.  An object whose applicable neighbour set is empty gets the value 0
from alignment, neighbour_distance, shared_walls_ratio and
neighbouring_street_orientation_deviation, while mean_interbuilding_distance
yields the undefined value (numpy NaN, modelled `none`) when its restricted
adjacency selection holds no usable distance — the 0-versus-NaN asymmetry. -/
theorem empty_neighborhood_defaults :
    (∀ own, alignmentRow [] own = 0) ∧
    neighbourDistanceRow [] = 0 ∧
    (∀ interLen p, sharedWallsRow [] interLen p = 0) ∧
    (∀ own, nsodRow [] own = 0) ∧
    (∀ adj nbhd,
      adj.filter (fun e => decide (e.1 ∈ nbhd) && decide (e.2.1 ∈ nbhd)) = [] →
      mibdRow adj nbhd = none) := by
  refine ⟨fun own => rfl, rfl, fun interLen p => rfl, fun own => rfl, ?_⟩
  intro adj nbhd h
  unfold mibdRow
  rw [h]
  rfl

/-- Witness for C6 at concrete inputs, including an adjacency list whose
restriction to the (empty) neighbourhood holds no edge. -/
theorem empty_neighborhood_defaults_witness :
    alignmentRow [] 5 = 0 ∧ neighbourDistanceRow [] = 0 ∧
    sharedWallsRow [] (fun _ => 1) 4 = 0 ∧ nsodRow [] 5 = 0 ∧
    mibdRow [(0, 1, 3)] [] = none :=
  ⟨empty_neighborhood_defaults.1 5, empty_neighborhood_defaults.2.1,
    empty_neighborhood_defaults.2.2.1 (fun _ => 1) 4,
    empty_neighborhood_defaults.2.2.2.1 5,
    empty_neighborhood_defaults.2.2.2.2 [(0, 1, 3)] [] rfl⟩

/-- C8.  Each completed metric emits exactly one value per input row, in row
order: the orientation loop appends once in both branches of the axis
comparison, and the final loop of mean_interbuilding_distance appends for
every row because the focal id is appended to its own neighbourhood before
the emptiness guard, which therefore never skips a row. -/
theorem one_result_per_row (f : ℚ → ℚ → ℚ) (rows : List BBox)
    (adj : List (Nat × Nat × ℚ)) (wh : Nat → List Nat) (ids : List Nat) :
    (orientationResults f rows).length = rows.length ∧
    ((mibdFinal adj wh ids).1).length = ids.length := by
  constructor
  · exact List.length_map rows (orientationRow f)
  · induction ids generalizing wh with
    | nil => rfl
    | cons tid rest ih =>
      have h : 0 < (wh tid ++ [tid]).length := by simp
      simp only [mibdFinal]
      rw [if_pos h]
      simp only [List.length_append, List.length_cons, List.length_singleton,
        List.length_nil]
      rw [ih]
      omega

/-- C4 (code behaviour at the failing input).  In
`neighbouring_street_orientation_deviation` the focal segment stays in its
own neighbour set — the result of `neighbors.drop([index])` is discarded —
whereas `shared_walls_ratio` does remove the focal object via
`list.remove`.  Input: a single street segment at row 0 (every geometry
intersects itself, so the focal row is always a bbox-and-intersection hit). -/
theorem nsod_focal_not_excluded :
    nsodNeighbors [0] (fun _ => true) 0 = [0] ∧
    0 ∈ nsodNeighbors [0] (fun _ => true) 0 ∧
    0 ∉ swrNeighbors [0] 0 := by
  refine ⟨rfl, ?_, ?_⟩
  · rw [show nsodNeighbors [0] (fun _ => true) 0 = [0] from rfl]
    exact List.mem_singleton_self 0
  · rw [show swrNeighbors [0] 0 = [] from rfl]
    exact List.not_mem_nil 0

/-- C5 (code behaviour at the failing inputs).  `shared_walls_ratio` called
with an array-like `unique_id` leaves the helper column `mm_uid` on the
caller's table; `neighbouring_street_orientation_deviation` leaves
`tmporient` behind (its drop is not in place); and the final loop of
`mean_interbuilding_distance` mutates the caller-supplied higher-order
weights matrix: object 0, whose neighbour list was empty before the call,
has neighbour list `[0]` after it. -/
theorem transient_state_not_restored :
    sharedWallsRatioCols ["geometry"] ColParam.noneGiven false = ["geometry", "mm_uid"] ∧
    nsodCols ["geometry"] = ["geometry", "tmporient"] ∧
    (mibdFinal [] (fun _ => []) [0]).2 0 = [0] := by
  refine ⟨by decide, by decide, rfl⟩

/-- C10.  `alignment`, `neighbour_distance` and `mean_interbuilding_distance`
read the focal id from the column literally named `uID`, with no parameter to
choose another name: on a row whose id column bears any other name the
lookup fails (`none` — a missing-column KeyError in the source), while
`building_adjacency` reads the column named by its `unique_id` parameter and
succeeds whenever that column is present. -/
theorem uid_column_hardcoded (row : List (String × ℚ))
    (h : ∀ kv ∈ row, kv.1 ≠ "uID") :
    alignmentFocalId row = none ∧
    neighbourDistanceFocalId row = none ∧
    mibdFocalId row = none ∧
    (∀ c v, (c, v) ∈ row → (buildingAdjacencyFocalId row c).isSome) := by
  have hnone : colGet row "uID" = none := by
    unfold colGet
    rw [List.find?_eq_none.mpr ?_]
    · rfl
    · intro kv hkv hb
      exact h kv hkv (by simpa using hb)
  refine ⟨hnone, hnone, hnone, ?_⟩
  intro c v hv
  unfold buildingAdjacencyFocalId colGet
  have hfind : (List.find? (fun kv => kv.1 == c) row).isSome := by
    rw [List.find?_isSome]
    exact ⟨(c, v), hv, by simp⟩
  obtain ⟨kv, hkv⟩ := Option.isSome_iff_exists.mp hfind
  rw [hkv]
  rfl

/-- Witness for C10 on a concrete row whose id column is named `myid`. -/
theorem uid_column_hardcoded_witness :
    (∀ kv ∈ exRow, kv.1 ≠ "uID") ∧
    alignmentFocalId exRow = none ∧
    (buildingAdjacencyFocalId exRow "myid").isSome := by
  have h : ∀ kv ∈ exRow, kv.1 ≠ "uID" := by decide
  exact ⟨h, (uid_column_hardcoded exRow h).1,
    (uid_column_hardcoded exRow h).2.2.2 "myid" 7
      (List.mem_singleton_self ("myid", (7 : ℚ)))⟩

end Momepy
